import Mathlib

/-!
Verification of the stackbrew-generator release automation.

This file gives a shallow embedding of the Python sources
(`models.py`, `version_filter.py`, `stackbrew.py`) and proves
properties of the version model, the three-stage version filter,
the tag deriver and the manifest merger.
-/

/-! ### Version model (models.py, class RedisVersion) -/

/-- Embedding of `RedisVersion`: major, minor, optional patch, suffix. -/
structure RedisVersion where
  major : Nat
  minor : Nat
  patch : Option Nat
  suffix : String
deriving DecidableEq, Repr

/-- String prefix test on the underlying character lists
(kernel-reducible version of `str.startswith`). -/
def strStartsWith (s pre : String) : Bool :=
  pre.toList.isPrefixOf s.toList

/-- String suffix test on the underlying character lists
(kernel-reducible version of `str.endswith`). -/
def strEndsWith (s post : String) : Bool :=
  post.toList.isSuffixOf s.toList

/-- Lowercasing on the underlying character list (`str.lower`). -/
def strToLower (s : String) : String :=
  ⟨s.toList.map Char.toLower⟩

/-- `is_milestone`: the version has a non-empty suffix. -/
def RedisVersion.is_milestone (v : RedisVersion) : Bool :=
  v.suffix != ""

/-- `is_eol`: the suffix, lowercased, ends with "-eol". -/
def RedisVersion.is_eol (v : RedisVersion) : Bool :=
  strEndsWith (strToLower v.suffix) "-eol"

/-- `mainline_version`: the "major.minor" string. -/
def RedisVersion.mainline_version (v : RedisVersion) : String :=
  toString v.major ++ "." ++ toString v.minor

/-- `__str__`: "major.minor[.patch]suffix". -/
def RedisVersion.str (v : RedisVersion) : String :=
  toString v.major ++ "." ++ toString v.minor ++
    (match v.patch with
     | some p => "." ++ toString p
     | none => "") ++ v.suffix

/-- The suffix weight computed inside `sort_key`:
100 if the suffix starts with "rc", 50 if it starts with "m", else 0. -/
def RedisVersion.suffix_weight (v : RedisVersion) : Nat :=
  if strStartsWith v.suffix "rc" then 100
  else if strStartsWith v.suffix "m" then 50
  else 0

/-- `sort_key`: the string "{major}.{minor}.{patch or 0}.{weight}.{suffix}".
Note that it is a string, compared lexicographically by the sorts below. -/
def RedisVersion.sort_key (v : RedisVersion) : String :=
  toString v.major ++ "." ++ toString v.minor ++ "." ++
    toString (v.patch.getD 0) ++ "." ++ toString v.suffix_weight ++ "." ++ v.suffix

/-- The numeric triple `(major, minor, patch or 0)` used by `__lt__`. -/
def RedisVersion.triple (v : RedisVersion) : Nat × Nat × Nat :=
  (v.major, v.minor, v.patch.getD 0)

/-- Lexicographic order on numeric triples, as Python compares tuples. -/
def tripleLt (a b : Nat × Nat × Nat) : Prop :=
  a.1 < b.1 ∨ (a.1 = b.1 ∧ (a.2.1 < b.2.1 ∨ (a.2.1 = b.2.1 ∧ a.2.2 < b.2.2)))

instance (a b : Nat × Nat × Nat) : Decidable (tripleLt a b) := by
  unfold tripleLt
  infer_instance

/-- Lexicographic comparison of character lists by code point, as Python
compares strings. -/
def charListLt : List Char → List Char → Bool
  | _, [] => false
  | [], _ :: _ => true
  | a :: as, b :: bs => decide (a < b) || (a == b && charListLt as bs)

/-- Python string `<` on the underlying character lists. -/
def strLt (s t : String) : Bool := charListLt s.toList t.toList

/-- Python string `<=`: the negation of the reversed strict comparison. -/
def strLe (s t : String) : Bool := !(strLt t s)

/-- `__lt__`: compare triples lexicographically; on a tie, an empty suffix is
greater than a non-empty one, and two suffixes are otherwise compared by
plain string comparison. -/
def RedisVersion.lt (a b : RedisVersion) : Bool :=
  if a.triple = b.triple then
    (if a.suffix = "" then false
     else if b.suffix = "" then true
     else strLt a.suffix b.suffix)
  else decide (tripleLt a.triple b.triple)

/-! ### Version parsing (models.py, RedisVersion.parse) -/

/-- Numeric value of a decimal digit character. -/
def digitVal (c : Char) : Nat := c.toNat - '0'.toNat

/-- Decimal value of a digit string, as `int()` computes it. -/
def digitsToNat (ds : List Char) : Nat :=
  ds.foldl (fun a c => a * 10 + digitVal c) 0

/-- The `(.*)` suffix group of the parse regex: everything up to the first
newline (the dot does not match a newline). -/
def lineTake (cs : List Char) : String :=
  ⟨cs.takeWhile (fun c => c ≠ '\n')⟩

/-- Matching of the regex `([1-9]\d*\.\d+(?:\.\d+)?)(.*)` at the start of a
character list, returning (major, minor, optional patch, suffix group). -/
def matchVersionCore (cs : List Char) : Option (Nat × Nat × Option Nat × String) :=
  match cs with
  | [] => none
  | c :: cs1 =>
    if '1' ≤ c ∧ c ≤ '9' then
      let majDs := c :: cs1.takeWhile Char.isDigit
      match cs1.dropWhile Char.isDigit with
      | '.' :: cs2 =>
        let minDs := cs2.takeWhile Char.isDigit
        if minDs.isEmpty then none
        else
          match cs2.dropWhile Char.isDigit with
          | '.' :: cs4 =>
            let patDs := cs4.takeWhile Char.isDigit
            if patDs.isEmpty then
              some (digitsToNat majDs, digitsToNat minDs, none,
                lineTake (cs2.dropWhile Char.isDigit))
            else
              some (digitsToNat majDs, digitsToNat minDs, some (digitsToNat patDs),
                lineTake (cs4.dropWhile Char.isDigit))
          | _ =>
            some (digitsToNat majDs, digitsToNat minDs, none,
              lineTake (cs2.dropWhile Char.isDigit))
      | _ => none
    else none

/-- `RedisVersion.parse`: strip every leading 'v' (Python `lstrip("v")`),
then match the version regex; `none` models the raised `ValueError`. -/
def RedisVersion.parse (s : String) : Option RedisVersion :=
  match matchVersionCore (s.toList.dropWhile (fun c => c = 'v')) with
  | none => none
  | some (ma, mi, pa, suf) => some ⟨ma, mi, pa, suf⟩

example : RedisVersion.parse "v8.2.1-m01" = some ⟨8, 2, some 1, "-m01"⟩ := by decide
example : RedisVersion.parse "8.2" = some ⟨8, 2, none, ""⟩ := by decide
example : RedisVersion.parse "0.1.0" = none := by decide
example : RedisVersion.parse "invalid" = none := by decide
example : (RedisVersion.mk 8 2 (some 1) "-m01").str = "8.2.1-m01" := by decide
example : (RedisVersion.mk 8 2 (some 1) "").sort_key = "8.2.1.0." := by decide
example : (RedisVersion.mk 8 2 (some 1) "-rc01").sort_key = "8.2.1.0.-rc01" := by decide

/-! ### Distribution, Release and entry models (models.py) -/

/-- `DistroType` enumeration. -/
inductive DistroType where
  | alpine
  | debian
deriving DecidableEq, Repr

/-- The enum's string value. -/
def DistroType.value : DistroType → String
  | .alpine => "alpine"
  | .debian => "debian"

/-- Embedding of `Distribution`. -/
structure Distribution where
  type : DistroType
  name : String
deriving DecidableEq, Repr

/-- `is_default`: Debian is the default distribution. -/
def Distribution.is_default (d : Distribution) : Bool :=
  match d.type with
  | .debian => true
  | .alpine => false

/-- `tag_names`: `[type, name]` for alpine, `[name]` for debian. -/
def Distribution.tag_names (d : Distribution) : List String :=
  match d.type with
  | .alpine => [d.type.value, d.name]
  | .debian => [d.name]

/-- Embedding of `Release`. -/
structure Release where
  commit : String
  version : RedisVersion
  distribution : Distribution
  git_fetch_ref : String
deriving DecidableEq, Repr

/-- Embedding of `StackbrewEntry`. -/
structure StackbrewEntry where
  tags : List String
  commit : String
  version : RedisVersion
  distribution : Distribution
  git_fetch_ref : String
deriving DecidableEq, Repr

/-! ### Tag derivation (stackbrew.py, StackbrewGenerator) -/

/-- `generate_tags_for_release`: builds the version-tag list, emits bare tags
for the default distribution, then the distro-suffixed tags, then the
latest-only tags. -/
def generate_tags_for_release (r : Release) (is_latest : Bool) : List String :=
  let version := r.version
  let distribution := r.distribution
  let version_tags := [version.str]
  let version_tags :=
    if !version.is_milestone then version_tags ++ [version.mainline_version]
    else version_tags
  let version_tags :=
    if is_latest then version_tags ++ [toString version.major] else version_tags
  let tags := if distribution.is_default then version_tags else []
  let tags := tags ++
    (distribution.tag_names.map (fun dn => version_tags.map (fun vt => vt ++ "-" ++ dn))).flatten
  let tags :=
    if is_latest then
      (tags ++ (if distribution.is_default then ["latest"] else [])) ++ distribution.tag_names
    else tags
  tags

/-- The state carried by the "latest" scan in `generate_stackbrew_library`:
`latest_minor` and the `latest_minor_unset` flag. -/
structure ScanState where
  latest_minor : Option Nat
  unset : Bool
deriving DecidableEq, Repr

/-- One step of the "latest" scan: while unset, a GA release pins its minor;
once set, a release of a different minor clears the pin to `none`. -/
def stepLatest (s : ScanState) (r : Release) : ScanState :=
  if s.unset then
    if !r.version.is_milestone then ⟨some r.version.minor, false⟩ else s
  else if s.latest_minor ≠ some r.version.minor then ⟨none, false⟩
  else s

/-- The scan over a release list, recording for each release the state after
its update and the resulting `is_latest` flag. -/
def scanLatest : ScanState → List Release → List (Release × Bool)
  | _, [] => []
  | s, r :: rs =>
    let s1 := stepLatest s r
    (r, s1.latest_minor.isSome) :: scanLatest s1 rs

/-- The initial scan state: `latest_minor = None`, `latest_minor_unset = True`. -/
def initScan : ScanState := ⟨none, true⟩

/-- `generate_stackbrew_library`: one entry per release with non-empty tags,
in input order. -/
def generate_stackbrew_library (releases : List Release) : List StackbrewEntry :=
  (scanLatest initScan releases).filterMap fun p =>
    let tags := generate_tags_for_release p.1 p.2
    if tags.isEmpty then none
    else some ⟨tags, p.1.commit, p.1.version, p.1.distribution, p.1.git_fetch_ref⟩

example :
    generate_tags_for_release
      ⟨"c1", ⟨8, 2, some 1, ""⟩, ⟨DistroType.debian, "bookworm"⟩, "refs/tags/v8.2.1"⟩ true =
    ["8.2.1", "8.2", "8", "8.2.1-bookworm", "8.2-bookworm", "8-bookworm", "latest",
      "bookworm"] := by decide

example :
    generate_tags_for_release
      ⟨"c1", ⟨8, 2, some 1, ""⟩, ⟨DistroType.alpine, "alpine3.22"⟩, "refs/tags/v8.2.1"⟩ true =
    ["8.2.1-alpine", "8.2-alpine", "8-alpine", "8.2.1-alpine3.22", "8.2-alpine3.22",
      "8-alpine3.22", "alpine", "alpine3.22"] := by decide

example :
    generate_tags_for_release
      ⟨"c1", ⟨8, 2, some 1, "-m01"⟩, ⟨DistroType.debian, "bookworm"⟩, "r"⟩ false =
    ["8.2.1-m01", "8.2.1-m01-bookworm"] := by decide

/-! ### Version selection pipeline (version_filter.py, VersionFilter) -/

/-- The `(RedisVersion, commit, tag_ref)` tuples the filter pipeline carries. -/
abbrev VersionTuple := RedisVersion × String × String

/-- Stable insertion of `x` into a list sorted by nonincreasing `key`:
`x` goes before the first element whose key is ≤ its own, which is exactly
where a stable descending sort places it. -/
def insertDescBy (key : α → String) (x : α) : List α → List α
  | [] => [x]
  | y :: ys => if strLe (key y) (key x) then x :: y :: ys else y :: insertDescBy key x ys

/-- Stable descending sort by a string key, modelling Python's
`list.sort(key=..., reverse=True)`. -/
def sortDescBy (key : α → String) (l : List α) : List α :=
  l.foldr (insertDescBy key) []

/-- The sort key used throughout `version_filter.py`: `x[0].sort_key`. -/
def tupleKey (t : VersionTuple) : String := t.1.sort_key

/-- Does the regex `v{major}\.\d+(?:\.\d+)?.*` match at the start of `cs`?
Only the mandatory `v{major}.` and one digit constrain the match. -/
def tagPatternAt (major : Nat) (cs : List Char) : Bool :=
  let pre := ('v' :: (toString major).toList) ++ ['.']
  pre.isPrefixOf cs &&
    match cs.drop pre.length with
    | c :: _ => c.isDigit
    | [] => false

/-- `re.search`: the suffix of `cs` starting at the leftmost match position. -/
def searchStart (major : Nat) : List Char → Option (List Char)
  | [] => none
  | c :: cs => if tagPatternAt major (c :: cs) then some (c :: cs) else searchStart major cs

/-- `GitClient.extract_version_from_tag`: search the tag pattern inside the
ref, take the matched text (up to a newline, as `.*` does), and parse it;
`none` models the raised errors. -/
def extract_version_from_tag (major : Nat) (tag_ref : String) : Option RedisVersion :=
  match searchStart major tag_ref.toList with
  | none => none
  | some cs => RedisVersion.parse (lineTake cs)

/-- Stage 1, `get_redis_versions_from_tags` (pure core): parse each
`(commit, tag_ref)` pair, skipping failures, then sort by the string
`sort_key`, newest first according to that key. -/
def get_redis_versions_from_tags (major : Nat) (tags : List (String × String)) :
    List VersionTuple :=
  sortDescBy tupleKey
    (tags.filterMap fun t => (extract_version_from_tag major t.2).map (fun v => (v, t.1, t.2)))

/-- The grouping key of `filter_eol_versions`: the version's mainline. -/
def vkeyOf (t : VersionTuple) : String := t.1.mainline_version

/-- One step of the dict building in `filter_eol_versions`: append the tuple
to its mainline's group, creating the group on first occurrence. -/
def addToGroup (d : List (String × List VersionTuple)) (x : VersionTuple) :
    List (String × List VersionTuple) :=
  if d.any (fun p => p.1 == vkeyOf x) then
    d.map fun p => if p.1 == vkeyOf x then (p.1, p.2 ++ [x]) else p
  else d ++ [(vkeyOf x, [x])]

/-- The `minor_versions` dict of `filter_eol_versions`: groups keyed by
mainline, keys in first-occurrence order. -/
def minorVersionsDict (vs : List VersionTuple) : List (String × List VersionTuple) :=
  vs.foldl addToGroup []

/-- Stage 2, `filter_eol_versions`: group by mainline, drop every group
containing an EOL version, concatenate the surviving groups in key order,
and re-sort by `sort_key`. -/
def filter_eol_versions (vs : List VersionTuple) : List VersionTuple :=
  sortDescBy tupleKey
    ((minorVersionsDict vs).map (fun p =>
      if p.2.any (fun t => t.1.is_eol) then [] else p.2)).flatten

/-- The patch key `(major, minor, patch)` of `filter_actual_versions`. -/
abbrev PatchKey := Nat × Nat × Option Nat

/-- The patch key of a tuple. -/
def pkeyOf (t : VersionTuple) : PatchKey := (t.1.major, t.1.minor, t.1.patch)

/-- One step of the first pass of `filter_actual_versions` over the ordered
dict `patch_versions`: a new key is appended; an existing key is replaced
only when it held a milestone and the new tuple is GA. -/
def addPatch (d : List (PatchKey × VersionTuple)) (x : VersionTuple) :
    List (PatchKey × VersionTuple) :=
  if d.any (fun p => p.1 == pkeyOf x) then
    d.map fun p =>
      if p.1 == pkeyOf x && p.2.1.is_milestone && !x.1.is_milestone then (p.1, x) else p
  else d ++ [(pkeyOf x, x)]

/-- The ordered dict `patch_versions` after the first pass. -/
def buildPatchDict (vs : List VersionTuple) : List (PatchKey × VersionTuple) :=
  vs.foldl addPatch []

/-- The second pass of `filter_actual_versions`: walk the dict values with the
set `mainlines_with_ga`, keeping a tuple only while its mainline has not yet
produced a GA, and recording the mainline once a GA is kept. -/
def keepFirstGA : List VersionTuple → List String → List VersionTuple
  | [], _ => []
  | x :: xs, gset =>
    if gset.contains (vkeyOf x) then keepFirstGA xs gset
    else x :: keepFirstGA xs (if x.1.is_milestone then gset else vkeyOf x :: gset)

/-- Stage 3, `filter_actual_versions`. -/
def filter_actual_versions (vs : List VersionTuple) : List VersionTuple :=
  keepFirstGA ((buildPatchDict vs).map Prod.snd) []

example :
    filter_actual_versions
      [(⟨8, 2, some 2, ""⟩, "c1", "r1"), (⟨8, 2, some 1, ""⟩, "c2", "r2"),
       (⟨8, 2, some 0, ""⟩, "c3", "r3"), (⟨8, 1, some 1, ""⟩, "c4", "r4"),
       (⟨8, 1, some 0, ""⟩, "c5", "r5")] =
      [(⟨8, 2, some 2, ""⟩, "c1", "r1"), (⟨8, 1, some 1, ""⟩, "c4", "r4")] := by decide

example :
    filter_eol_versions
      [(⟨8, 1, some 0, "-eol"⟩, "c1", "r1"), (⟨8, 1, some 2, ""⟩, "c2", "r2"),
       (⟨8, 1, some 0, ""⟩, "c3", "r3")] = [] := by decide

example :
    get_redis_versions_from_tags 8 [("c1", "refs/tags/v8.9.0"), ("c2", "refs/tags/v8.10.0")] =
      [(⟨8, 9, some 0, ""⟩, "c1", "refs/tags/v8.9.0"),
       (⟨8, 10, some 0, ""⟩, "c2", "refs/tags/v8.10.0")] := by decide

/-! ### Manifest merging (stackbrew.py, StackbrewUpdater) -/

/-- `str.rstrip()`: drop trailing whitespace. -/
def rstripStr (s : String) : String :=
  ⟨(s.toList.reverse.dropWhile Char.isWhitespace).reverse⟩

/-- `str.strip()`: drop leading and trailing whitespace. -/
def stripStr (s : String) : String :=
  ⟨((s.toList.dropWhile Char.isWhitespace).reverse.dropWhile Char.isWhitespace).reverse⟩

/-- `str.split(sep)` for a single separator character. -/
def splitOnChar (sep : Char) : List Char → List (List Char)
  | [] => [[]]
  | c :: rest =>
    match splitOnChar sep rest with
    | [] => []
    | g :: gs => if c == sep then [] :: g :: gs else (c :: g) :: gs

/-- `content.split('\n')`. -/
def splitLines (s : String) : List String :=
  (splitOnChar '\n' s.toList).map (fun g => ⟨g⟩)

/-- `'\n'.join(lines)`. -/
def joinLines : List String → String
  | [] => ""
  | [l] => l
  | l :: ls => l ++ "\n" ++ joinLines ls

/-- The four non-`Tags:` labels an entry line may start with. -/
def isLabelLine (line : String) : Bool :=
  strStartsWith line "Architectures:" || strStartsWith line "GitCommit:" ||
    strStartsWith line "GitFetch:" || strStartsWith line "Directory:"

/-- The loop of `_parse_stackbrew_entries`: each raw line is right-stripped; a
`Tags:` line opens an entry (closing any open one); label lines and blank
lines extend the open entry; every other line is dropped. -/
def parseEntriesAux (acc : List (List String)) (cur : List String) :
    List String → List (List String)
  | [] => if cur.isEmpty then acc else acc ++ [cur]
  | l :: ls =>
    let line := rstripStr l
    if strStartsWith line "Tags:" then
      if cur.isEmpty then parseEntriesAux acc [line] ls
      else parseEntriesAux (acc ++ [cur]) [line] ls
    else if !cur.isEmpty && (isLabelLine line || stripStr line == "") then
      parseEntriesAux acc (cur ++ [line]) ls
    else parseEntriesAux acc cur ls

/-- `_parse_stackbrew_entries`. -/
def parseStackbrewEntries (lines : List String) : List (List String) :=
  parseEntriesAux [] [] lines

/-- The per-tag test of `_entry_belongs_to_major_version`: the regex
`^{major}(?:\.|$|-)`. -/
def matchMajorTag (major : Nat) (tag : String) : Bool :=
  tag == toString major || strStartsWith tag (toString major ++ ".") ||
    strStartsWith tag (toString major ++ "-")

/-- `_entry_belongs_to_major_version`: look at the first `Tags:` line only,
split its payload on commas, strip each tag, and test each against the
major-version pattern. -/
def entryBelongsToMajor (entry : List String) (major : Nat) : Bool :=
  match entry.find? (fun line => strStartsWith line "Tags:") with
  | some line =>
    ((splitOnChar ',' (stripStr ⟨line.toList.drop 5⟩).toList).map
      (fun t => stripStr ⟨t⟩)).any (fun t => matchMajorTag major t)
  | none => false

/-- The classification state of `update_stackbrew_content`: entries before the
target block, target-major entries, entries after, and whether a target entry
has been seen. -/
structure ClassifyState where
  before : List (List String)
  target : List (List String)
  after : List (List String)
  found : Bool
deriving DecidableEq, Repr

/-- One classification step: a matching entry always joins the target block;
a non-matching entry goes before or after depending on whether a match has
been seen. -/
def classifyStep (major : Nat) (st : ClassifyState) (e : List String) : ClassifyState :=
  if entryBelongsToMajor e major then
    { st with target := st.target ++ [e], found := true }
  else if !st.found then { st with before := st.before ++ [e] }
  else { st with after := st.after ++ [e] }

/-- The classification loop over all parsed entries. -/
def classifyEntries (entries : List (List String)) (major : Nat) : ClassifyState :=
  entries.foldl (classifyStep major) ⟨[], [], [], false⟩

/-- Appending one block to the reconstruction, inserting a blank line when the
last emitted line is non-blank. -/
def appendBlock (res : List String) (block : List String) : List String :=
  (if !res.isEmpty && stripStr (res.getLast?.getD "") != "" then res ++ [""] else res) ++ block

/-- The line-level core of `update_stackbrew_content` when the document has at
least one `Tags:` line: split off the header, parse and classify the entries,
and reassemble header, before-block, new content and after-block. -/
def updateLinesCore (lines : List String) (major : Nat) (newLines : List String) :
    List String :=
  let idx := lines.findIdx (fun l => strStartsWith l "Tags:")
  let header := lines.take idx
  let entries := parseStackbrewEntries (lines.drop idx)
  let st := classifyEntries entries major
  let r1 := st.before.foldl appendBlock header
  let r2 := appendBlock r1 newLines
  st.after.foldl appendBlock r2

/-- `update_stackbrew_content` on the document text: with no `Tags:` line at
all the new content is appended after the right-stripped document, otherwise
the line-level merge runs. -/
def update_stackbrew_content (content : String) (major : Nat) (new_content : String) :
    String :=
  let lines := splitLines content
  if !(lines.any (fun l => strStartsWith l "Tags:")) then
    rstripStr content ++ "\n\n" ++ new_content
  else joinLines (updateLinesCore lines major (splitLines new_content))

example :
    updateLinesCore
      ["# header", "", "Tags: 7.4.5", "Directory: debian", "", "Tags: 8.0.0",
        "Directory: debian"] 8 ["Tags: 8.2.1", "Directory: debian"] =
      ["# header", "", "Tags: 7.4.5", "Directory: debian", "", "Tags: 8.2.1",
        "Directory: debian"] := by decide

/-! ### Order facts about the embedded comparisons -/

lemma tripleLt_irrefl (p : Nat × Nat × Nat) : ¬ tripleLt p p := by
  unfold tripleLt
  omega

lemma tripleLt_trans {p q r : Nat × Nat × Nat} :
    tripleLt p q → tripleLt q r → tripleLt p r := by
  unfold tripleLt
  omega

lemma tripleLt_asymm {p q : Nat × Nat × Nat} : tripleLt p q → ¬ tripleLt q p := by
  unfold tripleLt
  omega

lemma tripleLt_cases (p q : Nat × Nat × Nat) : tripleLt p q ∨ tripleLt q p ∨ p = q := by
  rcases p with ⟨p1, p2, p3⟩
  rcases q with ⟨q1, q2, q3⟩
  simp only [tripleLt, Prod.mk.injEq]
  omega

lemma charListLt_irrefl (l : List Char) : charListLt l l = false := by
  induction l with
  | nil => rfl
  | cons a as ih => simp [charListLt, ih, lt_irrefl]

lemma charListLt_asymm : ∀ (l m : List Char),
    charListLt l m = true → charListLt m l = false := by
  intro l
  induction l with
  | nil =>
    intro m h
    cases m with
    | nil => simp [charListLt] at h
    | cons b bs => simp [charListLt]
  | cons a as ih =>
    intro m h
    cases m with
    | nil => simp [charListLt] at h
    | cons b bs =>
      simp only [charListLt, Bool.or_eq_true, decide_eq_true_eq, Bool.and_eq_true,
        beq_iff_eq] at h
      simp only [charListLt, Bool.or_eq_false_iff, decide_eq_false_iff_not,
        Bool.and_eq_false_iff]
      rcases h with h | ⟨rfl, h⟩
      · exact ⟨not_lt_of_lt h, Or.inl (by simp [ne_of_gt h])⟩
      · exact ⟨lt_irrefl a, Or.inr (ih bs h)⟩

lemma charListLt_trans : ∀ (l m n : List Char),
    charListLt l m = true → charListLt m n = true → charListLt l n = true := by
  intro l
  induction l with
  | nil =>
    intro m n hlm hmn
    cases n with
    | nil =>
      cases m with
      | nil => simp [charListLt] at hlm
      | cons b bs => simp [charListLt] at hmn
    | cons c cs => simp [charListLt]
  | cons a as ih =>
    intro m n hlm hmn
    cases m with
    | nil => simp [charListLt] at hlm
    | cons b bs =>
      cases n with
      | nil => simp [charListLt] at hmn
      | cons c cs =>
        simp only [charListLt, Bool.or_eq_true, decide_eq_true_eq, Bool.and_eq_true,
          beq_iff_eq] at hlm hmn ⊢
        rcases hlm with h1 | ⟨rfl, h1⟩
        · rcases hmn with h2 | ⟨rfl, h2⟩
          · exact Or.inl (lt_trans h1 h2)
          · exact Or.inl h1
        · rcases hmn with h2 | ⟨rfl, h2⟩
          · exact Or.inl h2
          · exact Or.inr ⟨rfl, ih bs cs h1 h2⟩

lemma charListLt_total : ∀ (l m : List Char),
    charListLt l m = false → charListLt m l = false → l = m := by
  intro l
  induction l with
  | nil =>
    intro m h1 _
    cases m with
    | nil => rfl
    | cons b bs => simp [charListLt] at h1
  | cons a as ih =>
    intro m h1 h2
    cases m with
    | nil => simp [charListLt] at h2
    | cons b bs =>
      simp only [charListLt, Bool.or_eq_false_iff, decide_eq_false_iff_not,
        Bool.and_eq_false_iff, beq_eq_false_iff_ne, ne_eq] at h1 h2
      obtain ⟨hab, h1r⟩ := h1
      obtain ⟨hba, h2r⟩ := h2
      have hab2 : a = b := le_antisymm (not_lt.mp hba) (not_lt.mp hab)
      subst hab2
      rcases h1r with h | h1r
      · exact absurd rfl h
      · rcases h2r with h | h2r
        · exact absurd rfl h
        · exact congrArg (a :: ·) (ih bs h1r h2r)

lemma strLt_irrefl (s : String) : strLt s s = false := charListLt_irrefl _

lemma strLt_trans {s t u : String} :
    strLt s t = true → strLt t u = true → strLt s u = true :=
  charListLt_trans _ _ _

lemma strLt_total {s t : String} :
    strLt s t = false → strLt t s = false → s = t := by
  intro h1 h2
  have h := charListLt_total _ _ h1 h2
  cases s
  cases t
  simp only [String.toList] at h
  exact congrArg String.mk h

lemma vlt_irrefl (a : RedisVersion) : RedisVersion.lt a a = false := by
  unfold RedisVersion.lt
  by_cases ha : a.suffix = "" <;> simp [ha, strLt_irrefl]

lemma vlt_trans (a b c : RedisVersion) (h1 : RedisVersion.lt a b = true)
    (h2 : RedisVersion.lt b c = true) : RedisVersion.lt a c = true := by
  unfold RedisVersion.lt at h1 h2 ⊢
  by_cases hab : a.triple = b.triple <;> by_cases hbc : b.triple = c.triple
  · have hac : a.triple = c.triple := hab.trans hbc
    simp only [if_pos hab] at h1
    simp only [if_pos hbc] at h2
    simp only [if_pos hac]
    by_cases ha : a.suffix = ""
    · simp [ha] at h1
    · by_cases hb : b.suffix = ""
      · simp [ha, hb] at h2
      · by_cases hc : c.suffix = ""
        · simp [ha, hc]
        · simp only [if_neg ha, if_neg hb] at h1
          simp only [if_neg hb, if_neg hc] at h2
          simp only [if_neg ha, if_neg hc]
          exact strLt_trans h1 h2
  · have hac : ¬ a.triple = c.triple := by rw [hab]; exact hbc
    simp only [if_neg hbc, decide_eq_true_eq] at h2
    simp only [if_neg hac, decide_eq_true_eq]
    rw [hab]
    exact h2
  · have hac : ¬ a.triple = c.triple := by rw [← hbc]; exact hab
    simp only [if_neg hab, decide_eq_true_eq] at h1
    simp only [if_neg hac, decide_eq_true_eq]
    rw [← hbc]
    exact h1
  · simp only [if_neg hab, decide_eq_true_eq] at h1
    simp only [if_neg hbc, decide_eq_true_eq] at h2
    have h3 := tripleLt_trans h1 h2
    have hac : ¬ a.triple = c.triple := by
      intro he
      rw [he] at h3
      exact tripleLt_irrefl _ h3
    simp only [if_neg hac, decide_eq_true_eq]
    exact h3

lemma vlt_connex (a b : RedisVersion) :
    RedisVersion.lt a b = true ∨ RedisVersion.lt b a = true ∨
      (a.triple = b.triple ∧ a.suffix = b.suffix) := by
  by_cases hab : a.triple = b.triple
  · by_cases ha : a.suffix = "" <;> by_cases hb : b.suffix = ""
    · exact Or.inr (Or.inr ⟨hab, ha.trans hb.symm⟩)
    · exact Or.inr (Or.inl (by simp [RedisVersion.lt, hab.symm, ha, hb]))
    · exact Or.inl (by simp [RedisVersion.lt, hab, ha, hb])
    · by_cases hlt : strLt a.suffix b.suffix = true
      · exact Or.inl (by simp [RedisVersion.lt, hab, ha, hb, hlt])
      · by_cases hgt : strLt b.suffix a.suffix = true
        · exact Or.inr (Or.inl (by simp [RedisVersion.lt, hab.symm, ha, hb, hgt]))
        · refine Or.inr (Or.inr ⟨hab, ?_⟩)
          exact strLt_total (Bool.eq_false_iff.mpr hlt) (Bool.eq_false_iff.mpr hgt)
  · rcases tripleLt_cases a.triple b.triple with h | h | h
    · exact Or.inl (by simp [RedisVersion.lt, hab, h])
    · have hba : ¬ b.triple = a.triple := fun he => hab he.symm
      exact Or.inr (Or.inl (by simp [RedisVersion.lt, hba, h]))
    · exact absurd h hab

/-- C1 (amended): `__lt__` is a strict total order on Versions: it is
irreflexive and transitive, and any two Versions are comparable unless they
agree on `(major, minor, patch or 0)` and have identical suffixes. On
distinct numeric triples it is the lexicographic tuple order; on a tie a
Version with empty suffix is greater than any with a non-empty suffix, and
two non-empty suffixes are compared by plain full lexicographic string
comparison (no rc/m class weighting). -/
theorem C1_lt_strict_total_order :
    (∀ a : RedisVersion, RedisVersion.lt a a = false) ∧
    (∀ a b c : RedisVersion, RedisVersion.lt a b = true → RedisVersion.lt b c = true →
      RedisVersion.lt a c = true) ∧
    (∀ a b : RedisVersion, RedisVersion.lt a b = true ∨ RedisVersion.lt b a = true ∨
      (a.triple = b.triple ∧ a.suffix = b.suffix)) ∧
    (∀ a b : RedisVersion, a.triple ≠ b.triple →
      (RedisVersion.lt a b = true ↔ tripleLt a.triple b.triple)) ∧
    (∀ a b : RedisVersion, a.triple = b.triple → a.suffix ≠ "" → b.suffix = "" →
      RedisVersion.lt a b = true) ∧
    (∀ a b : RedisVersion, a.triple = b.triple → a.suffix ≠ "" → b.suffix ≠ "" →
      (RedisVersion.lt a b = true ↔ strLt a.suffix b.suffix = true)) := by
  refine ⟨vlt_irrefl, vlt_trans, vlt_connex, ?_, ?_, ?_⟩
  · intro a b hab
    simp [RedisVersion.lt, hab]
  · intro a b hab ha hb
    simp [RedisVersion.lt, hab, ha, hb]
  · intro a b hab ha hb
    simp [RedisVersion.lt, hab, ha, hb]

/-- C1 witness: transitivity applied at three concrete parsed Versions. -/
theorem C1_witness :
    RedisVersion.lt ⟨8, 2, some 1, "-m01"⟩ ⟨8, 2, some 2, ""⟩ = true :=
  C1_lt_strict_total_order.2.1 ⟨8, 2, some 1, "-m01"⟩ ⟨8, 2, some 1, ""⟩
    ⟨8, 2, some 2, ""⟩ (by decide) (by decide)

/-- C1 counterexample: both "8.2.1rc1" and "8.2.1x1" parse; the claim's class
rule puts the rc-class suffix above the non-rc, non-m suffix "x1", but the
code compares the two Versions by plain string order, ranking "rc1" strictly
below "x1". -/
theorem C1_counterexample :
    RedisVersion.parse "8.2.1rc1" = some ⟨8, 2, some 1, "rc1"⟩ ∧
    RedisVersion.parse "8.2.1x1" = some ⟨8, 2, some 1, "x1"⟩ ∧
    RedisVersion.lt ⟨8, 2, some 1, "rc1"⟩ ⟨8, 2, some 1, "x1"⟩ = true ∧
    RedisVersion.lt ⟨8, 2, some 1, "x1"⟩ ⟨8, 2, some 1, "rc1"⟩ = false := by
  refine ⟨by decide, by decide, by decide, by decide⟩

/-! ### Characterizing parse failure (claim C9) -/

/-- The spec's parse shape: the text decomposes as a major beginning with a
nonzero digit and continuing with digits, a dot, a non-empty digit run
starting the minor, and arbitrary remaining text (the optional patch and the
free-form suffix). -/
def versionShape (cs : List Char) : Prop :=
  ∃ (c : Char) (a b r : List Char),
    cs = c :: (a ++ '.' :: (b ++ r)) ∧ ('1' ≤ c ∧ c ≤ '9') ∧
    (∀ x ∈ a, x.isDigit = true) ∧ b ≠ [] ∧ (∀ x ∈ b, x.isDigit = true)

lemma digitsToNat_aux (ds : List Char) :
    ∀ a : Nat, 1 ≤ a → 1 ≤ ds.foldl (fun a c => a * 10 + digitVal c) a := by
  induction ds with
  | nil => intro a ha; exact ha
  | cons d ds ih =>
    intro a ha
    simp only [List.foldl_cons]
    exact ih _ (by omega)

lemma digitVal_pos {c : Char} (h : '1' ≤ c) : 1 ≤ digitVal c := by
  have h1 : '1'.toNat ≤ c.toNat := by
    rw [Char.le_def, UInt32.le_def, BitVec.le_def] at h
    exact h
  have h0 : '1'.toNat = 49 := rfl
  have h2 : '0'.toNat = 48 := rfl
  unfold digitVal
  omega

lemma digitsToNat_head_pos {c : Char} (h : '1' ≤ c) (ds : List Char) :
    1 ≤ digitsToNat (c :: ds) := by
  unfold digitsToNat
  simp only [List.foldl_cons, Nat.zero_mul, Nat.zero_add]
  exact digitsToNat_aux ds _ (digitVal_pos h)

lemma takeWhile_ne_nil_of_head {p : Char → Bool} {b r : List Char}
    (hb : b ≠ []) (hd : ∀ x ∈ b, p x = true) : (b ++ r).takeWhile p ≠ [] := by
  cases b with
  | nil => exact absurd rfl hb
  | cons x xs =>
    simp only [List.cons_append, List.takeWhile_cons, hd x (by simp)]
    simp

lemma matchVersionCore_ne_none_of_shape {cs : List Char} (h : versionShape cs) :
    matchVersionCore cs ≠ none := by
  obtain ⟨c, a, b, r, rfl, h19, ha, hb0, hb⟩ := h
  have hdw : (a ++ '.' :: (b ++ r)).dropWhile Char.isDigit = '.' :: (b ++ r) := by
    rw [List.dropWhile_append_of_pos ha]
    simp [List.dropWhile_cons]
  have htw : ((b ++ r).takeWhile Char.isDigit).isEmpty = false := by
    simpa [List.isEmpty_iff] using takeWhile_ne_nil_of_head hb0 hb
  intro hno
  simp only [matchVersionCore, if_pos h19, hdw, htw] at hno
  rw [if_neg (by simp)] at hno
  split at hno
  · split at hno <;> simp at hno
  · simp at hno

lemma shape_of_matchVersionCore_ne_none {cs : List Char}
    (h : matchVersionCore cs ≠ none) : versionShape cs := by
  cases cs with
  | nil => simp [matchVersionCore] at h
  | cons c cs1 =>
    by_cases h19 : '1' ≤ c ∧ c ≤ '9'
    · rcases hdw : cs1.dropWhile Char.isDigit with _ | ⟨d, cs2⟩
      · simp [matchVersionCore, if_pos h19, hdw] at h
      · by_cases hd : d = '.'
        · subst hd
          by_cases hmin : (cs2.takeWhile Char.isDigit).isEmpty = true
          · simp [matchVersionCore, if_pos h19, hdw, hmin] at h
          · refine ⟨c, cs1.takeWhile Char.isDigit, cs2.takeWhile Char.isDigit,
              cs2.dropWhile Char.isDigit, ?_, h19, ?_, ?_, ?_⟩
            · rw [List.takeWhile_append_dropWhile, ← hdw,
                List.takeWhile_append_dropWhile]
            · intro x hx
              exact List.mem_takeWhile_imp hx
            · simpa [List.isEmpty_iff] using hmin
            · intro x hx
              exact List.mem_takeWhile_imp hx
        · exfalso
          apply h
          simp only [matchVersionCore, if_pos h19, hdw]
          split
          · rename_i heq
            exact absurd (List.cons.inj heq).1 hd
          · rfl
    · simp [matchVersionCore, if_neg h19] at h

lemma matchVersionCore_major_pos {cs : List Char} {q : Nat × Nat × Option Nat × String}
    (h : matchVersionCore cs = some q) : 1 ≤ q.1 := by
  cases cs with
  | nil => simp [matchVersionCore] at h
  | cons c cs1 =>
    by_cases h19 : '1' ≤ c ∧ c ≤ '9'
    · simp only [matchVersionCore, if_pos h19] at h
      split at h
      · split at h
        · simp at h
        · split at h
          · split at h <;>
              · obtain rfl := Option.some.inj h
                exact digitsToNat_head_pos h19.1 _
          · obtain rfl := Option.some.inj h
            exact digitsToNat_head_pos h19.1 _
      · simp at h
    · simp [matchVersionCore, if_neg h19] at h

lemma parse_eq_none_iff (s : String) :
    RedisVersion.parse s = none ↔
      matchVersionCore (s.toList.dropWhile (fun c => c = 'v')) = none := by
  unfold RedisVersion.parse
  cases matchVersionCore (s.toList.dropWhile (fun c => c = 'v')) with
  | none => simp
  | some q =>
    rcases q with ⟨ma, mi, pa, suf⟩
    simp

/-- C9 (amended): parsing fails exactly when, after stripping **all** leading
'v' characters (Python `lstrip`), the remainder does not start with
`<nonzero digit><digits*>.<digits+>` (the `<major>.<minor>` shape with a
no-leading-zero major, any optional patch and suffix being absorbed by the
free-form remainder); and every successfully parsed Version has major ≥ 1. -/
theorem C9_parse_failure_characterization (s : String) :
    (RedisVersion.parse s = none ↔
      ¬ versionShape (s.toList.dropWhile (fun c => c = 'v'))) ∧
    (∀ v : RedisVersion, RedisVersion.parse s = some v → 1 ≤ v.major) := by
  constructor
  · rw [parse_eq_none_iff]
    constructor
    · intro hn hs
      exact matchVersionCore_ne_none_of_shape hs hn
    · intro hns
      by_contra hne
      exact hns (shape_of_matchVersionCore_ne_none hne)
  · intro v hv
    unfold RedisVersion.parse at hv
    cases hm : matchVersionCore (s.toList.dropWhile (fun c => c = 'v')) with
    | none =>
      rw [hm] at hv
      simp at hv
    | some q =>
      rcases q with ⟨ma, mi, pa, suf⟩
      rw [hm] at hv
      obtain rfl : RedisVersion.mk ma mi pa suf = v := by simpa using hv
      simpa using matchVersionCore_major_pos hm

/-- C9 witness: the characterization applied at the concrete string "8.2.1". -/
theorem C9_witness : 1 ≤ (RedisVersion.mk 8 2 (some 1) "").major :=
  (C9_parse_failure_characterization "8.2.1").2 ⟨8, 2, some 1, ""⟩ (by decide)

/-- C9 counterexample: the claim rejects "vv8.2.1" (only one optional leading
'v' may be stripped), but the code strips every leading 'v' and parses it
successfully. -/
theorem C9_counterexample :
    RedisVersion.parse "vv8.2.1" = some ⟨8, 2, some 1, ""⟩ := by decide

/-! ### The "latest" scan (claims C5, C10, C4) -/

lemma scanLatest_cleared (rs : List Release) :
    scanLatest ⟨none, false⟩ rs = rs.map (fun r => (r, false)) := by
  induction rs with
  | nil => rfl
  | cons r rs ih =>
    have hstep : stepLatest ⟨none, false⟩ r = ⟨none, false⟩ := by
      simp [stepLatest]
    simp [scanLatest, hstep, ih]

lemma scanLatest_append (s : ScanState) (rs1 rs2 : List Release) :
    scanLatest s (rs1 ++ rs2) =
      scanLatest s rs1 ++ scanLatest (rs1.foldl stepLatest s) rs2 := by
  induction rs1 generalizing s with
  | nil => rfl
  | cons r rs ih => simp [scanLatest, ih, List.foldl_cons]

/-- C5: once the scan state has reached "pin set then cleared"
(`latest_minor = None` with `latest_minor_unset = False`), no later release is
ever marked latest-eligible: however the scan continues, every remaining
release is annotated `false`. -/
theorem C5_pin_never_rearms (rs1 rs2 : List Release)
    (h : rs1.foldl stepLatest initScan = ⟨none, false⟩) :
    scanLatest initScan (rs1 ++ rs2) =
      scanLatest initScan rs1 ++ rs2.map (fun r => (r, false)) := by
  rw [scanLatest_append, h, scanLatest_cleared]

/-- C5 witness: a GA 8.2 release pins minor 2, the following 8.1 release
clears the pin, and a later GA 8.3 release is still not marked latest. -/
theorem C5_witness :
    scanLatest initScan
        ([⟨"a", ⟨8, 2, some 0, ""⟩, ⟨DistroType.debian, "bookworm"⟩, "ra"⟩,
          ⟨"b", ⟨8, 1, some 0, ""⟩, ⟨DistroType.debian, "bookworm"⟩, "rb"⟩] ++
         [⟨"c", ⟨8, 3, some 0, ""⟩, ⟨DistroType.debian, "bookworm"⟩, "rc"⟩]) =
      scanLatest initScan
        [⟨"a", ⟨8, 2, some 0, ""⟩, ⟨DistroType.debian, "bookworm"⟩, "ra"⟩,
         ⟨"b", ⟨8, 1, some 0, ""⟩, ⟨DistroType.debian, "bookworm"⟩, "rb"⟩] ++
      [(⟨"c", ⟨8, 3, some 0, ""⟩, ⟨DistroType.debian, "bookworm"⟩, "rc"⟩, false)] :=
  C5_pin_never_rearms _ _ (by decide)

lemma generate_tags_ne_nil (r : Release) (b : Bool) :
    generate_tags_for_release r b ≠ [] := by
  rcases r with ⟨c, v, ⟨dt, dn⟩, gf⟩
  cases dt <;> cases b <;> cases hm : v.is_milestone <;>
    simp [generate_tags_for_release, Distribution.is_default, Distribution.tag_names,
      DistroType.value, hm]

lemma generate_stackbrew_library_data (rs : List Release) :
    ∀ s : ScanState,
      ((scanLatest s rs).filterMap fun p =>
        let tags := generate_tags_for_release p.1 p.2
        if tags.isEmpty then none
        else some (⟨tags, p.1.commit, p.1.version, p.1.distribution,
          p.1.git_fetch_ref⟩ : StackbrewEntry)).map
          (fun e => (e.commit, e.version, e.distribution, e.git_fetch_ref)) =
        rs.map (fun r => (r.commit, r.version, r.distribution, r.git_fetch_ref)) := by
  induction rs with
  | nil => intro s; rfl
  | cons r rs ih =>
    intro s
    have hne : (generate_tags_for_release r (stepLatest s r).latest_minor.isSome).isEmpty =
        false := by
      simpa [List.isEmpty_iff] using generate_tags_ne_nil r _
    simp only [scanLatest, List.filterMap_cons, hne]
    simp only [Bool.false_eq_true, if_false, List.map_cons, List.cons.injEq]
    exact ⟨trivial, ih _⟩

/-- C10: tag generation never returns an empty list, and its first tag is
`str(version)` either bare (default distribution) or with the first distro
fragment suffix; consequently `generate_stackbrew_library` produces exactly
one entry per input release, in input order, carrying that release's commit,
version, distribution and fetch ref — the zero-tags warning branch never
fires. -/
theorem C10_one_entry_per_release :
    (∀ (r : Release) (b : Bool),
      generate_tags_for_release r b ≠ [] ∧
      ((generate_tags_for_release r b).head? = some r.version.str ∨
       (generate_tags_for_release r b).head? = some (r.version.str ++ "-" ++ "alpine"))) ∧
    (∀ rs : List Release,
      (generate_stackbrew_library rs).map
          (fun e => (e.commit, e.version, e.distribution, e.git_fetch_ref)) =
        rs.map (fun r => (r.commit, r.version, r.distribution, r.git_fetch_ref))) := by
  constructor
  · intro r b
    refine ⟨generate_tags_ne_nil r b, ?_⟩
    rcases r with ⟨c, v, ⟨dt, dn⟩, gf⟩
    cases dt <;> cases b <;> cases hm : v.is_milestone <;>
      simp [generate_tags_for_release, Distribution.is_default, Distribution.tag_names,
        DistroType.value, hm]
  · intro rs
    exact generate_stackbrew_library_data rs initScan

/-! ### Tag set against the spec reference (claim C4) -/

/-- The §4.4 `versionTags` reference: `[str(version)]`, plus `minorLine` when
not a pre-release, plus `str(major)` when latest. -/
def specVersionTags (v : RedisVersion) (isLatest : Bool) : List String :=
  [v.str] ++ (if v.is_milestone then [] else [v.mainline_version]) ++
    (if isLatest then [toString v.major] else [])

/-- The §4.4 per-release tag set reference: bare version tags only for the
default distribution, every version tag suffixed with every distro fragment,
and, when latest, the literal "latest" only for the default distribution plus
every bare distro fragment. -/
def specTagsForRelease (v : RedisVersion) (d : Distribution) (isLatest : Bool) :
    List String :=
  (if d.is_default then specVersionTags v isLatest else []) ++
    (d.tag_names.map (fun f => (specVersionTags v isLatest).map (fun t => t ++ "-" ++ f))).flatten ++
    (if isLatest then (if d.is_default then ["latest"] else []) ++ d.tag_names else [])

/-- C4: for every release and latest flag, the generated tag list equals the
§4.4 reference construction, and the Debian GA latest example yields exactly
the claimed tag set. -/
theorem C4_tags_match_spec :
    (∀ (r : Release) (b : Bool),
      generate_tags_for_release r b = specTagsForRelease r.version r.distribution b) ∧
    generate_tags_for_release
        ⟨"c1", ⟨8, 2, some 1, ""⟩, ⟨DistroType.debian, "bookworm"⟩, "refs/tags/v8.2.1"⟩
        true =
      ["8.2.1", "8.2", "8", "8.2.1-bookworm", "8.2-bookworm", "8-bookworm", "latest",
        "bookworm"] := by
  constructor
  · intro r b
    rcases r with ⟨c, v, ⟨dt, dn⟩, gf⟩
    cases dt <;> cases b <;> cases hm : v.is_milestone <;>
      simp [generate_tags_for_release, specTagsForRelease, specVersionTags,
        Distribution.is_default, Distribution.tag_names, DistroType.value, hm]
  · decide

/-! ### Keep-latest-per-line (claim C3) -/

lemma addPatch_inv {d : List (PatchKey × VersionTuple)} {x : VersionTuple}
    (h1 : d.Pairwise (fun p q => p.1 ≠ q.1)) (h2 : ∀ p ∈ d, pkeyOf p.2 = p.1) :
    (addPatch d x).Pairwise (fun p q => p.1 ≠ q.1) ∧
      ∀ p ∈ addPatch d x, pkeyOf p.2 = p.1 := by
  unfold addPatch
  by_cases hc : d.any (fun p => p.1 == pkeyOf x) = true
  · simp only [if_pos hc]
    constructor
    · rw [List.pairwise_map]
      refine h1.imp_of_mem ?_
      intro p q _ _ hpq
      split <;> split <;> simpa using hpq
    · intro p hp
      obtain ⟨q, hq, rfl⟩ := List.mem_map.mp hp
      split
      · rename_i hcond
        simp only [Bool.and_eq_true, beq_iff_eq] at hcond
        exact hcond.1.1.symm
      · exact h2 q hq
  · simp only [if_neg hc]
    rw [List.any_eq_true] at hc
    push_neg at hc
    constructor
    · rw [List.pairwise_append]
      refine ⟨h1, List.pairwise_singleton _ _, ?_⟩
      intro p hp q hq
      simp only [List.mem_singleton] at hq
      subst hq
      intro he
      exact absurd (by simp [he]) (hc p hp)
    · intro p hp
      rcases List.mem_append.mp hp with h | h
      · exact h2 p h
      · simp only [List.mem_singleton] at h
        subst h
        rfl

lemma buildPatchDict_inv (vs : List VersionTuple) :
    ∀ d : List (PatchKey × VersionTuple),
      d.Pairwise (fun p q => p.1 ≠ q.1) → (∀ p ∈ d, pkeyOf p.2 = p.1) →
      (vs.foldl addPatch d).Pairwise (fun p q => p.1 ≠ q.1) ∧
        ∀ p ∈ vs.foldl addPatch d, pkeyOf p.2 = p.1 := by
  induction vs with
  | nil => intro d h1 h2; exact ⟨h1, h2⟩
  | cons x xs ih =>
    intro d h1 h2
    obtain ⟨h1x, h2x⟩ := addPatch_inv h1 h2
    exact ih _ h1x h2x

lemma keepFirstGA_sublist : ∀ (xs : List VersionTuple) (g : List String),
    (keepFirstGA xs g).Sublist xs := by
  intro xs
  induction xs with
  | nil => intro g; exact List.Sublist.refl _
  | cons x xs ih =>
    intro g
    unfold keepFirstGA
    split
    · exact (ih g).cons x
    · exact (ih _).cons₂ x

lemma keepFirstGA_cons (x : VersionTuple) (xs : List VersionTuple) (g : List String) :
    keepFirstGA (x :: xs) g =
      if g.contains (vkeyOf x) then keepFirstGA xs g
      else x :: keepFirstGA xs (if x.1.is_milestone then g else vkeyOf x :: g) := rfl

lemma keepFirstGA_inv : ∀ (xs : List VersionTuple) (g : List String),
    (∀ a ∈ keepFirstGA xs g, g.contains (vkeyOf a) = false) ∧
      (keepFirstGA xs g).Pairwise
        (fun a b => vkeyOf a = vkeyOf b → a.1.is_milestone = true) := by
  intro xs
  induction xs with
  | nil => intro g; simp [keepFirstGA]
  | cons x xs ih =>
    intro g
    by_cases hg : g.contains (vkeyOf x) = true
    · have hred : keepFirstGA (x :: xs) g = keepFirstGA xs g := by
        rw [keepFirstGA_cons, if_pos hg]
      rw [hred]
      exact ih g
    · have hgf : g.contains (vkeyOf x) = false := by
        simpa using hg
      have hred : keepFirstGA (x :: xs) g =
          x :: keepFirstGA xs (if x.1.is_milestone then g else vkeyOf x :: g) := by
        rw [keepFirstGA_cons, if_neg (by simpa using hgf)]
      have hsub : ∀ a : VersionTuple,
          (if x.1.is_milestone then g else vkeyOf x :: g).contains (vkeyOf a) = false →
            g.contains (vkeyOf a) = false := by
        intro a ha
        split at ha
        · exact ha
        · simp only [List.contains_cons, Bool.or_eq_false_iff] at ha
          exact ha.2
      rw [hred]
      constructor
      · intro a ha
        rcases List.mem_cons.mp ha with rfl | ha
        · exact hgf
        · exact hsub a ((ih _).1 a ha)
      · refine List.Pairwise.cons ?_ (ih _).2
        intro b hb hkey
        by_cases hm : x.1.is_milestone = true
        · exact hm
        · exfalso
          have hb2 := (ih _).1 b hb
          simp only [Bool.not_eq_true] at hm
          simp only [hm, Bool.false_eq_true, if_false, List.contains_cons,
            Bool.or_eq_false_iff] at hb2
          rw [← hkey] at hb2
          simpa using hb2.1

/-! ### EOL filtering (claim C6) -/

lemma mem_insertDescBy {key : α → String} {x a : α} {l : List α} :
    a ∈ insertDescBy key x l ↔ a = x ∨ a ∈ l := by
  induction l with
  | nil => simp [insertDescBy]
  | cons y ys ih =>
    unfold insertDescBy
    split
    · simp [List.mem_cons]
    · rw [List.mem_cons, List.mem_cons, ih]
      tauto

lemma mem_sortDescBy {key : α → String} {l : List α} {a : α} :
    a ∈ sortDescBy key l ↔ a ∈ l := by
  unfold sortDescBy
  induction l with
  | nil => simp
  | cons y ys ih => simp [List.foldr_cons, mem_insertDescBy, ih]

/-- The tuples of `vs` whose mainline is `k`, in input order: the contents of
the dict group for key `k`. -/
def groupFilter (vs : List VersionTuple) (k : String) : List VersionTuple :=
  vs.filter fun y => vkeyOf y == k

lemma groupFilter_append_one (processed : List VersionTuple) (x : VersionTuple)
    (k : String) :
    groupFilter (processed ++ [x]) k =
      groupFilter processed k ++ (if vkeyOf x == k then [x] else []) := by
  by_cases h : (vkeyOf x == k) = true <;>
    simp [groupFilter, List.filter_append, List.filter_cons, h]

lemma addToGroup_inv {processed : List VersionTuple}
    {d : List (String × List VersionTuple)}
    (h1 : ∀ p ∈ d, p.2 = groupFilter processed p.1)
    (h2 : ∀ k, (∃ p ∈ d, p.1 = k) ↔ ∃ y ∈ processed, vkeyOf y = k)
    (x : VersionTuple) :
    (∀ p ∈ addToGroup d x, p.2 = groupFilter (processed ++ [x]) p.1) ∧
    (∀ k, (∃ p ∈ addToGroup d x, p.1 = k) ↔ ∃ y ∈ processed ++ [x], vkeyOf y = k) := by
  unfold addToGroup
  by_cases hc : d.any (fun p => p.1 == vkeyOf x) = true
  · rw [if_pos hc]
    rw [List.any_eq_true] at hc
    obtain ⟨q0, hq0, hq0k⟩ := hc
    rw [beq_iff_eq] at hq0k
    constructor
    · intro p hp
      obtain ⟨q, hq, rfl⟩ := List.mem_map.mp hp
      by_cases hqk : (q.1 == vkeyOf x) = true
      · rw [if_pos hqk]
        rw [beq_iff_eq] at hqk
        show q.2 ++ [x] = groupFilter (processed ++ [x]) q.1
        rw [groupFilter_append_one, ← h1 q hq, if_pos (by simp [hqk])]
      · rw [if_neg hqk]
        have hx : ¬ ((vkeyOf x == q.1) = true) := by
          rw [beq_iff_eq]
          intro he
          exact hqk (by rw [beq_iff_eq]; exact he.symm)
        rw [groupFilter_append_one, ← h1 q hq, if_neg hx]
        simp
    · intro k
      constructor
      · rintro ⟨p, hp, rfl⟩
        obtain ⟨q, hq, rfl⟩ := List.mem_map.mp hp
        have hfst : (if (q.1 == vkeyOf x) = true then (q.1, q.2 ++ [x]) else q).1 = q.1 := by
          split <;> rfl
        rw [hfst]
        obtain ⟨y, hy, hyk⟩ := (h2 q.1).mp ⟨q, hq, rfl⟩
        exact ⟨y, List.mem_append_left _ hy, hyk⟩
      · rintro ⟨y, hy, rfl⟩
        rcases List.mem_append.mp hy with hy | hy
        · obtain ⟨p, hp, hpk⟩ := (h2 (vkeyOf y)).mpr ⟨y, hy, rfl⟩
          refine ⟨(if (p.1 == vkeyOf x) = true then (p.1, p.2 ++ [x]) else p), ?_, ?_⟩
          · exact List.mem_map.mpr ⟨p, hp, rfl⟩
          · split <;> simpa using hpk
        · have hyx : y = x := by simpa using hy
          refine ⟨(if (q0.1 == vkeyOf x) = true then (q0.1, q0.2 ++ [x]) else q0), ?_, ?_⟩
          · exact List.mem_map.mpr ⟨q0, hq0, rfl⟩
          · rw [hyx]
            split <;> simpa using hq0k
  · rw [if_neg hc]
    rw [List.any_eq_true] at hc
    push_neg at hc
    have hnok : ∀ q ∈ d, q.1 ≠ vkeyOf x := by
      intro q hq he
      exact absurd (by simp [he]) (hc q hq)
    constructor
    · intro p hp
      rcases List.mem_append.mp hp with hp | hp
      · have hx : ¬ ((vkeyOf x == p.1) = true) := by
          rw [beq_iff_eq]
          intro he
          exact hnok p hp he.symm
        rw [groupFilter_append_one, ← h1 p hp, if_neg hx]
        simp
      · simp only [List.mem_singleton] at hp
        subst hp
        show [x] = groupFilter (processed ++ [x]) (vkeyOf x)
        rw [groupFilter_append_one, if_pos (by simp)]
        have hempty : groupFilter processed (vkeyOf x) = [] := by
          unfold groupFilter
          rw [List.filter_eq_nil_iff]
          intro y hy
          simp only [beq_iff_eq]
          intro he
          obtain ⟨p, hp, hpk⟩ := (h2 (vkeyOf x)).mpr ⟨y, hy, he⟩
          exact hnok p hp hpk
        rw [hempty]
        rfl
    · intro k
      constructor
      · rintro ⟨p, hp, rfl⟩
        rcases List.mem_append.mp hp with hp | hp
        · obtain ⟨y, hy, hyk⟩ := (h2 p.1).mp ⟨p, hp, rfl⟩
          exact ⟨y, List.mem_append_left _ hy, hyk⟩
        · simp only [List.mem_singleton] at hp
          subst hp
          exact ⟨x, List.mem_append_right _ (by simp), rfl⟩
      · rintro ⟨z, hz, rfl⟩
        rcases List.mem_append.mp hz with hz | hz
        · obtain ⟨p, hp, hpk⟩ := (h2 (vkeyOf z)).mpr ⟨z, hz, rfl⟩
          exact ⟨p, List.mem_append_left _ hp, hpk⟩
        · have hzx : z = x := by simpa using hz
          refine ⟨(vkeyOf x, [x]), List.mem_append_right _ (by simp), ?_⟩
          rw [hzx]

lemma foldl_addToGroup_inv : ∀ (vs processed : List VersionTuple)
    (d : List (String × List VersionTuple)),
    (∀ p ∈ d, p.2 = groupFilter processed p.1) →
    (∀ k, (∃ p ∈ d, p.1 = k) ↔ ∃ y ∈ processed, vkeyOf y = k) →
    (∀ p ∈ vs.foldl addToGroup d, p.2 = groupFilter (processed ++ vs) p.1) ∧
    (∀ k, (∃ p ∈ vs.foldl addToGroup d, p.1 = k) ↔ ∃ y ∈ processed ++ vs, vkeyOf y = k) := by
  intro vs
  induction vs with
  | nil =>
    intro processed d h1 h2
    simp only [List.foldl_nil, List.append_nil]
    exact ⟨h1, h2⟩
  | cons x xs ih =>
    intro processed d h1 h2
    obtain ⟨h1x, h2x⟩ := addToGroup_inv h1 h2 x
    have hres := ih (processed ++ [x]) (addToGroup d x) h1x h2x
    simpa [List.append_assoc] using hres

lemma minorVersionsDict_inv (vs : List VersionTuple) :
    (∀ p ∈ minorVersionsDict vs, p.2 = groupFilter vs p.1) ∧
    (∀ k, (∃ p ∈ minorVersionsDict vs, p.1 = k) ↔ ∃ y ∈ vs, vkeyOf y = k) := by
  have h := foldl_addToGroup_inv vs [] [] (by simp) (by simp)
  simpa [minorVersionsDict] using h

/-- C6: the EOL filter keeps exactly the input entries whose minor-line group
contains no end-of-life Version: an entry survives iff it was in the input
and every input entry sharing its mainline is non-EOL; in particular
`[8.1.0-eol, 8.1.2, 8.1.0]` filters to the empty list. -/
theorem C6_eol_filter_membership :
    (∀ (vs : List VersionTuple) (x : VersionTuple),
      x ∈ filter_eol_versions vs ↔
        (x ∈ vs ∧ ∀ y ∈ vs, vkeyOf y = vkeyOf x → y.1.is_eol = false)) ∧
    filter_eol_versions
      [(⟨8, 1, some 0, "-eol"⟩, "c1", "r1"), (⟨8, 1, some 2, ""⟩, "c2", "r2"),
       (⟨8, 1, some 0, ""⟩, "c3", "r3")] = [] := by
  refine ⟨?_, by decide⟩
  intro vs x
  unfold filter_eol_versions
  rw [mem_sortDescBy, List.mem_flatten]
  obtain ⟨hd1, hd2⟩ := minorVersionsDict_inv vs
  constructor
  · rintro ⟨l, hl, hxl⟩
    obtain ⟨p, hp, rfl⟩ := List.mem_map.mp hl
    by_cases he : p.2.any (fun t => t.1.is_eol) = true
    · rw [if_pos he] at hxl
      simp at hxl
    · rw [if_neg he] at hxl
      have hpg := hd1 p hp
      rw [hpg] at hxl
      have hxv := List.mem_filter.mp hxl
      have hxk : vkeyOf x = p.1 := by simpa using hxv.2
      refine ⟨hxv.1, ?_⟩
      intro y hy hky
      by_contra hye
      have hyeT : y.1.is_eol = true := by simpa using hye
      have hany : p.2.any (fun t => t.1.is_eol) = true := by
        rw [hpg, List.any_eq_true]
        refine ⟨y, ?_, hyeT⟩
        simp only [groupFilter, List.mem_filter]
        refine ⟨hy, ?_⟩
        simp [hky, hxk]
      exact he hany
  · rintro ⟨hxv, hclean⟩
    obtain ⟨p, hp, hpk⟩ := (hd2 (vkeyOf x)).mpr ⟨x, hxv, rfl⟩
    refine ⟨if p.2.any (fun t => t.1.is_eol) = true then [] else p.2, ?_, ?_⟩
    · exact List.mem_map.mpr ⟨p, hp, rfl⟩
    · have hpg := hd1 p hp
      have hne : p.2.any (fun t => t.1.is_eol) = false := by
        rw [hpg, List.any_eq_false]
        intro y hy
        have hyf := List.mem_filter.mp hy
        have hyk : vkeyOf y = vkeyOf x := by
          have h2 := hyf.2
          rw [beq_iff_eq] at h2
          rw [h2, hpk]
        simp [hclean y hyf.1 hyk]
      rw [hne, if_neg (by simp)]
      rw [hpg]
      simp only [groupFilter, List.mem_filter]
      refine ⟨hxv, ?_⟩
      simp [hpk]

/-! ### Stage 1 sorting (claim C2) -/

/-- C2: Stage 1 evaluated at the failing input. The code sorts by the string
`sort_key`, so `8.9.0` is returned before `8.10.0` although `8.9.0` is
strictly smaller in the §3 Version order, and `8.2.1-m01` is returned before
the GA `8.2.1` although the GA is strictly greater: adjacent output pairs
violate the claimed descending Version order. -/
theorem C2_sort_uses_string_key_not_version_order :
    get_redis_versions_from_tags 8
        [("c1", "refs/tags/v8.9.0"), ("c2", "refs/tags/v8.10.0")] =
      [(⟨8, 9, some 0, ""⟩, "c1", "refs/tags/v8.9.0"),
       (⟨8, 10, some 0, ""⟩, "c2", "refs/tags/v8.10.0")] ∧
    RedisVersion.lt ⟨8, 9, some 0, ""⟩ ⟨8, 10, some 0, ""⟩ = true ∧
    get_redis_versions_from_tags 8
        [("c1", "refs/tags/v8.2.1"), ("c2", "refs/tags/v8.2.1-m01")] =
      [(⟨8, 2, some 1, "-m01"⟩, "c2", "refs/tags/v8.2.1-m01"),
       (⟨8, 2, some 1, ""⟩, "c1", "refs/tags/v8.2.1")] ∧
    RedisVersion.lt ⟨8, 2, some 1, "-m01"⟩ ⟨8, 2, some 1, ""⟩ = true := by
  refine ⟨by decide, by decide, by decide, by decide⟩

/-! ### Merge classification (claim C7) -/

lemma classify_go_found (major : Nat) :
    ∀ (entries : List (List String)) (B T A : List (List String)),
      entries.foldl (classifyStep major) ⟨B, T, A, true⟩ =
        ⟨B, T ++ entries.filter (fun e => entryBelongsToMajor e major),
         A ++ entries.filter (fun e => !(entryBelongsToMajor e major)), true⟩ := by
  intro entries
  induction entries with
  | nil => intro B T A; simp
  | cons e es ih =>
    intro B T A
    by_cases hbe : entryBelongsToMajor e major = true
    · simp only [List.foldl_cons, classifyStep, hbe, if_pos, List.filter_cons]
      rw [ih]
      simp [hbe]
    · have hbf : entryBelongsToMajor e major = false := by simpa using hbe
      simp only [List.foldl_cons, classifyStep, hbf]
      rw [if_neg (by simp), if_neg (by simp)]
      rw [ih]
      simp [hbf]

lemma classify_go_not_found (major : Nat) :
    ∀ (entries : List (List String)) (B : List (List String)),
      entries.foldl (classifyStep major) ⟨B, [], [], false⟩ =
        ⟨B ++ entries.takeWhile (fun e => !(entryBelongsToMajor e major)),
         entries.filter (fun e => entryBelongsToMajor e major),
         (entries.dropWhile (fun e => !(entryBelongsToMajor e major))).filter
           (fun e => !(entryBelongsToMajor e major)),
         entries.any (fun e => entryBelongsToMajor e major)⟩ := by
  intro entries
  induction entries with
  | nil => intro B; simp
  | cons e es ih =>
    intro B
    by_cases hbe : entryBelongsToMajor e major = true
    · simp only [List.foldl_cons, classifyStep, hbe, if_pos]
      rw [classify_go_found]
      simp [List.takeWhile_cons, List.dropWhile_cons, List.filter_cons, hbe,
        List.any_cons]
    · have hbf : entryBelongsToMajor e major = false := by simpa using hbe
      simp only [List.foldl_cons, classifyStep, hbf]
      rw [if_neg (by simp), if_pos (by simp)]
      rw [ih]
      simp [List.takeWhile_cons, List.dropWhile_cons, List.filter_cons, hbf,
        List.any_cons, List.append_assoc]

lemma classifyEntries_parts (entries : List (List String)) (major : Nat) :
    (classifyEntries entries major).target =
      entries.filter (fun e => entryBelongsToMajor e major) ∧
    (classifyEntries entries major).before =
      entries.takeWhile (fun e => !(entryBelongsToMajor e major)) ∧
    (classifyEntries entries major).after =
      (entries.dropWhile (fun e => !(entryBelongsToMajor e major))).filter
        (fun e => !(entryBelongsToMajor e major)) := by
  unfold classifyEntries
  rw [classify_go_not_found]
  exact ⟨rfl, by simp, rfl⟩

/-- C7 (amended): the merge classifies by **value**, not position: the target
block collects every entry whose Tags line matches the target major wherever
it appears in the document (all of them are replaced); the "before" block is
the maximal prefix of non-matching entries, and the "after" block is every
other non-matching entry, in original order. -/
theorem C7_classification_by_value (entries : List (List String)) (major : Nat) :
    (classifyEntries entries major).target =
      entries.filter (fun e => entryBelongsToMajor e major) ∧
    (classifyEntries entries major).before =
      entries.takeWhile (fun e => !(entryBelongsToMajor e major)) ∧
    (classifyEntries entries major).after =
      (entries.dropWhile (fun e => !(entryBelongsToMajor e major))).filter
        (fun e => !(entryBelongsToMajor e major)) :=
  classifyEntries_parts entries major

/-- C7 counterexample: a document whose target-major entries are not
contiguous (majors 7, 8, 7, 8). The claim places the second major-8 entry
unchanged in the "after" block, but the code removes it: its Tags line is
absent from the rewritten output. -/
theorem C7_counterexample :
    updateLinesCore
        ["Tags: 7.4.0", "Directory: debian", "", "Tags: 8.0.0", "Directory: debian",
         "", "Tags: 7.2.0", "Directory: debian", "", "Tags: 8.0.1",
         "Directory: debian"] 8 ["Tags: 8.2.1", "Directory: debian"] =
      ["Tags: 7.4.0", "Directory: debian", "", "Tags: 8.2.1", "Directory: debian",
       "", "Tags: 7.2.0", "Directory: debian", ""] ∧
    ¬ ("Tags: 8.0.1" ∈ updateLinesCore
        ["Tags: 7.4.0", "Directory: debian", "", "Tags: 8.0.0", "Directory: debian",
         "", "Tags: 7.2.0", "Directory: debian", "", "Tags: 8.0.1",
         "Directory: debian"] 8 ["Tags: 8.2.1", "Directory: debian"]) := by
  refine ⟨by decide, by decide⟩

/-! ### Merge preservation (claim C8) -/

lemma prefix_appendBlock (res block : List String) : res <+: appendBlock res block := by
  unfold appendBlock
  split
  · exact ⟨[""] ++ block, by simp⟩
  · exact ⟨block, rfl⟩

lemma prefix_foldl_appendBlock : ∀ (blocks : List (List String)) (res : List String),
    res <+: blocks.foldl appendBlock res := by
  intro blocks
  induction blocks with
  | nil => intro res; exact List.prefix_refl _
  | cons bb bs ih =>
    intro res
    exact (prefix_appendBlock res bb).trans (ih (appendBlock res bb))

lemma infix_foldl_appendBlock : ∀ (blocks : List (List String)) (res b : List String),
    b ∈ blocks → b <:+: blocks.foldl appendBlock res := by
  intro blocks
  induction blocks with
  | nil =>
    intro res b hb
    simp at hb
  | cons bb bs ih =>
    intro res b hb
    rcases List.mem_cons.mp hb with rfl | hb
    · have h1 : b <:+: appendBlock res b := by
        unfold appendBlock
        split
        · exact ⟨res ++ [""], [], by simp⟩
        · exact ⟨res, [], by simp⟩
      exact h1.trans (prefix_foldl_appendBlock bs (appendBlock res b)).isInfix
    · exact ih (appendBlock res bb) b hb

lemma updateLinesCore_as_foldl (lines : List String) (major : Nat)
    (newLines : List String) :
    updateLinesCore lines major newLines =
      ((classifyEntries (parseStackbrewEntries
          (lines.drop (lines.findIdx (fun l => strStartsWith l "Tags:")))) major).before ++
        [newLines] ++
        (classifyEntries (parseStackbrewEntries
          (lines.drop (lines.findIdx (fun l => strStartsWith l "Tags:")))) major).after).foldl
        appendBlock (lines.take (lines.findIdx (fun l => strStartsWith l "Tags:"))) := by
  unfold updateLinesCore
  rw [List.foldl_append, List.foldl_append]
  rfl

/-- C8 (amended): the merge reproduces the document header (every line before
the first `Tags:` line) verbatim as a prefix of the output, and reproduces
every non-target entry — as parsed, i.e. with each line right-stripped of
trailing whitespace and free-form text between entries dropped — as a
contiguous block of the output; the output is exactly the header followed by
the non-matching prefix entries, the new content and the remaining
non-matching entries, in order, separated by single blank lines. -/
theorem C8_merge_preserves_header_and_other_entries
    (lines : List String) (major : Nat) (newLines : List String) :
    lines.take (lines.findIdx (fun l => strStartsWith l "Tags:")) <+:
      updateLinesCore lines major newLines ∧
    (∀ e ∈ parseStackbrewEntries
        (lines.drop (lines.findIdx (fun l => strStartsWith l "Tags:"))),
      entryBelongsToMajor e major = false →
        e <:+: updateLinesCore lines major newLines) ∧
    updateLinesCore lines major newLines =
      ((classifyEntries (parseStackbrewEntries
          (lines.drop (lines.findIdx (fun l => strStartsWith l "Tags:")))) major).before ++
        [newLines] ++
        (classifyEntries (parseStackbrewEntries
          (lines.drop (lines.findIdx (fun l => strStartsWith l "Tags:")))) major).after).foldl
        appendBlock (lines.take (lines.findIdx (fun l => strStartsWith l "Tags:"))) := by
  refine ⟨?_, ?_, updateLinesCore_as_foldl lines major newLines⟩
  · rw [updateLinesCore_as_foldl]
    exact prefix_foldl_appendBlock _ _
  · intro e he hnb
    rw [updateLinesCore_as_foldl]
    apply infix_foldl_appendBlock
    set q : List String → Bool := fun x => !(entryBelongsToMajor x major) with hq
    have hsplit := List.takeWhile_append_dropWhile (p := q)
      (l := parseStackbrewEntries
        (lines.drop (lines.findIdx (fun l => strStartsWith l "Tags:"))))
    rw [← hsplit] at he
    obtain ⟨hc1, hc2, hc3⟩ := classifyEntries_parts (parseStackbrewEntries
      (lines.drop (lines.findIdx (fun l => strStartsWith l "Tags:")))) major

    rcases List.mem_append.mp he with hin | hin
    · rw [← hc2] at hin
      exact List.mem_append_left _ (List.mem_append_left _ hin)
    · have : e ∈ (List.dropWhile q (parseStackbrewEntries
          (lines.drop (lines.findIdx (fun l => strStartsWith l "Tags:"))))).filter q := by
        rw [List.mem_filter]
        exact ⟨hin, by simp [hq, hnb]⟩
      rw [← hc3] at this
      exact List.mem_append_right _ this

/-- C8 counterexample: a non-target (major-7) entry whose Tags line carries
trailing spaces. The claim reproduces it byte-identically, but the merge
right-strips every entry line: the original line with its trailing spaces is
absent from the output, which contains the stripped form instead. -/
theorem C8_counterexample :
    updateLinesCore
        ["# header", "Tags: 7.0.0  ", "Directory: debian", "", "Tags: 8.0.0",
         "Directory: debian"] 8 ["NEW"] =
      ["# header", "", "Tags: 7.0.0", "Directory: debian", "", "NEW"] ∧
    ¬ ("Tags: 7.0.0  " ∈ updateLinesCore
        ["# header", "Tags: 7.0.0  ", "Directory: debian", "", "Tags: 8.0.0",
         "Directory: debian"] 8 ["NEW"]) := by
  refine ⟨by decide, by decide⟩

/-! ### Stage 3 retention (claim C3) -/

/-- Reference for the claim's retention rule over the deduplicated list: an
entry is retained exactly when no earlier entry is a GA (non-milestone) of
the same minor line, the walk carrying the prefix seen so far. -/
def keepRetainedSpec (seen : List VersionTuple) : List VersionTuple → List VersionTuple
  | [] => []
  | x :: xs =>
    if seen.any (fun y => !y.1.is_milestone && (vkeyOf y == vkeyOf x)) then
      keepRetainedSpec (seen ++ [x]) xs
    else x :: keepRetainedSpec (seen ++ [x]) xs

lemma keepRetainedSpec_cons (seen : List VersionTuple) (x : VersionTuple)
    (xs : List VersionTuple) :
    keepRetainedSpec seen (x :: xs) =
      if seen.any (fun y => !y.1.is_milestone && (vkeyOf y == vkeyOf x)) then
        keepRetainedSpec (seen ++ [x]) xs
      else x :: keepRetainedSpec (seen ++ [x]) xs := rfl

lemma keepFirstGA_eq_keepRetainedSpec :
    ∀ (xs : List VersionTuple) (gset : List String) (seen : List VersionTuple),
      (∀ k, gset.contains k =
        seen.any (fun y => !y.1.is_milestone && (vkeyOf y == k))) →
      keepFirstGA xs gset = keepRetainedSpec seen xs := by
  intro xs
  induction xs with
  | nil => intro gset seen _; rfl
  | cons x xs ih =>
    intro gset seen hinv
    rw [keepFirstGA_cons, keepRetainedSpec_cons, ← hinv (vkeyOf x)]
    by_cases hc : gset.contains (vkeyOf x) = true
    · rw [if_pos hc, if_pos hc]
      apply ih
      intro k
      rw [List.any_append, ← hinv k]
      by_cases hx : ([x].any (fun y => !y.1.is_milestone && (vkeyOf y == k))) = true
      · have hkx : vkeyOf x = k := by
          simp only [List.any_cons, List.any_nil, Bool.or_false, Bool.and_eq_true,
            beq_iff_eq] at hx
          exact hx.2
        rw [hx, ← hkx, hc]
        rfl
      · have hxf : ([x].any (fun y => !y.1.is_milestone && (vkeyOf y == k))) = false := by
          simpa using hx
        rw [hxf, Bool.or_false]
    · rw [if_neg hc, if_neg hc]
      congr 1
      apply ih
      intro k
      rw [List.any_append, ← hinv k]
      by_cases hm : x.1.is_milestone = true
      · rw [if_pos hm]
        have hxf : ([x].any (fun y => !y.1.is_milestone && (vkeyOf y == k))) = false := by
          simp [hm]
        rw [hxf, Bool.or_false]
      · have hmf : x.1.is_milestone = false := by simpa using hm
        rw [if_neg hm, List.contains_cons]
        have hxe : ([x].any (fun y => !y.1.is_milestone && (vkeyOf y == k))) =
            (vkeyOf x == k) := by
          simp [hmf]
        rw [hxe]
        by_cases hk : vkeyOf x = k
        · simp [hk]
        · have h1 : (k == vkeyOf x) = false := by
            simpa using fun he => hk he.symm
          have h2 : (vkeyOf x == k) = false := by simpa using hk
          rw [h1, h2]
          simp

lemma keepRetainedSpec_append :
    ∀ (a b seen : List VersionTuple),
      keepRetainedSpec seen (a ++ b) =
        keepRetainedSpec seen a ++ keepRetainedSpec (seen ++ a) b := by
  intro a
  induction a with
  | nil => intro b seen; simp [keepRetainedSpec]
  | cons x xs ih =>
    intro b seen
    rw [List.cons_append, keepRetainedSpec_cons, keepRetainedSpec_cons]
    by_cases hc : seen.any (fun y => !y.1.is_milestone && (vkeyOf y == vkeyOf x)) = true
    · rw [if_pos hc, if_pos hc, ih]
      simp [List.append_assoc]
    · rw [if_neg hc, if_neg hc, ih]
      simp [List.append_assoc]

lemma keepFirstGA_retains (l1 l2 : List VersionTuple) (x : VersionTuple)
    (h : ∀ y ∈ l1, y.1.is_milestone = true ∨ vkeyOf y ≠ vkeyOf x) :
    x ∈ keepFirstGA (l1 ++ x :: l2) [] := by
  rw [keepFirstGA_eq_keepRetainedSpec _ [] [] (fun k => rfl)]
  rw [keepRetainedSpec_append]
  apply List.mem_append_right
  rw [keepRetainedSpec_cons]
  have hc : (([] : List VersionTuple) ++ l1).any
      (fun y => !y.1.is_milestone && (vkeyOf y == vkeyOf x)) = false := by
    rw [List.any_eq_false]
    intro y hy
    rcases h y (by simpa using hy) with hm | hk
    · simp [hm]
    · simp [hk]
  rw [hc, if_neg (by simp)]
  exact List.mem_cons_self _ _

/-- Reference for the claim's per-key selection rule: the entry kept for a
patch key is the first-seen GA entry of that key when one exists (a
later-seen GA replaces an earlier-seen pre-release), and otherwise the
first-seen entry. -/
def pickEntry (g : List VersionTuple) : Option VersionTuple :=
  match g.filter (fun t => !t.1.is_milestone) with
  | ga :: _ => some ga
  | [] => g.head?

/-- The input entries carrying a given patch key, in input order. -/
def groupPK (vs : List VersionTuple) (k : PatchKey) : List VersionTuple :=
  vs.filter fun y => pkeyOf y == k

lemma groupPK_append_one (processed : List VersionTuple) (x : VersionTuple)
    (k : PatchKey) :
    groupPK (processed ++ [x]) k =
      groupPK processed k ++ (if pkeyOf x == k then [x] else []) := by
  by_cases h : (pkeyOf x == k) = true <;>
    simp [groupPK, List.filter_append, List.filter_cons, h]

lemma pickEntry_singleton (x : VersionTuple) : pickEntry [x] = some x := by
  by_cases hm : x.1.is_milestone = true <;>
    simp [pickEntry, List.filter_cons, hm]

lemma pickEntry_append (g : List VersionTuple) (x v : VersionTuple)
    (hv : some v = pickEntry g)
    (hcase : v.1.is_milestone = false ∨ x.1.is_milestone = true) :
    pickEntry (g ++ [x]) = some v := by
  unfold pickEntry at hv ⊢
  rcases hga : g.filter (fun t => !t.1.is_milestone) with _ | ⟨ga, rest⟩
  · rw [hga] at hv
    cases g with
    | nil => simp at hv
    | cons a as =>
      have hva : v = a := by
        simp only [List.head?_cons] at hv
        exact Option.some.inj hv
      rcases hcase with hGA | hxm
      · exfalso
        have hmem : a ∈ (a :: as).filter (fun t => !t.1.is_milestone) := by
          apply List.mem_filter.mpr
          refine ⟨List.mem_cons_self _ _, ?_⟩
          rw [← hva]
          simp [hGA]
        rw [hga] at hmem
        simp at hmem
      · have hfx : ([x].filter (fun t => !t.1.is_milestone)) = [] := by
          simp [List.filter_cons, hxm]
        rw [List.filter_append, hga, hfx, List.nil_append, List.cons_append]
        simp [hva]
  · rw [hga] at hv
    have hvga : v = ga := Option.some.inj hv
    rw [List.filter_append, hga, List.cons_append]
    simp [hvga]

lemma pickEntry_append_replace (g : List VersionTuple) (x v : VersionTuple)
    (hv : some v = pickEntry g) (hvm : v.1.is_milestone = true)
    (hxg : x.1.is_milestone = false) :
    pickEntry (g ++ [x]) = some x := by
  unfold pickEntry at hv ⊢
  rcases hga : g.filter (fun t => !t.1.is_milestone) with _ | ⟨ga, rest⟩
  · have hfx : ([x].filter (fun t => !t.1.is_milestone)) = [x] := by
      simp [List.filter_cons, hxg]
    rw [List.filter_append, hga, hfx, List.nil_append]
  · exfalso
    rw [hga] at hv
    have hvga : v = ga := Option.some.inj hv
    have hmem : ga ∈ g.filter (fun t => !t.1.is_milestone) := by
      rw [hga]
      exact List.mem_cons_self _ _
    have hgaGA := List.of_mem_filter hmem
    rw [← hvga] at hgaGA
    simp [hvm] at hgaGA

lemma addPatch_pick_inv {processed : List VersionTuple}
    {d : List (PatchKey × VersionTuple)}
    (h1 : ∀ p ∈ d, some p.2 = pickEntry (groupPK processed p.1))
    (h2 : ∀ k, (∃ p ∈ d, p.1 = k) ↔ ∃ y ∈ processed, pkeyOf y = k)
    (x : VersionTuple) :
    (∀ p ∈ addPatch d x, some p.2 = pickEntry (groupPK (processed ++ [x]) p.1)) ∧
    (∀ k, (∃ p ∈ addPatch d x, p.1 = k) ↔ ∃ y ∈ processed ++ [x], pkeyOf y = k) := by
  unfold addPatch
  by_cases hc : d.any (fun p => p.1 == pkeyOf x) = true
  · rw [if_pos hc]
    rw [List.any_eq_true] at hc
    obtain ⟨q0, hq0, hq0k⟩ := hc
    rw [beq_iff_eq] at hq0k
    constructor
    · intro p hp
      obtain ⟨q, hq, rfl⟩ := List.mem_map.mp hp
      by_cases hcond : (q.1 == pkeyOf x && q.2.1.is_milestone && !x.1.is_milestone) = true
      · rw [if_pos hcond]
        simp only [Bool.and_eq_true, beq_iff_eq, Bool.not_eq_true'] at hcond
        show some x = pickEntry (groupPK (processed ++ [x]) q.1)
        rw [groupPK_append_one, if_pos (by simp [hcond.1.1])]
        exact (pickEntry_append_replace _ x q.2 (h1 q hq) hcond.1.2 hcond.2).symm
      · rw [if_neg hcond]
        by_cases hqk : q.1 = pkeyOf x
        · have hor : q.2.1.is_milestone = false ∨ x.1.is_milestone = true := by
            cases hm : q.2.1.is_milestone with
            | false => exact Or.inl rfl
            | true =>
              cases hx : x.1.is_milestone with
              | true => exact Or.inr rfl
              | false =>
                exfalso
                apply hcond
                simp [hqk, hm, hx]
          rw [groupPK_append_one, if_pos (by simp [hqk])]
          exact (pickEntry_append _ x q.2 (h1 q hq) hor).symm
        · have hx : ¬ ((pkeyOf x == q.1) = true) := by
            rw [beq_iff_eq]
            intro he
            exact hqk he.symm
          rw [groupPK_append_one, if_neg hx]
          simp [h1 q hq]
    · intro k
      constructor
      · rintro ⟨p, hp, rfl⟩
        obtain ⟨q, hq, rfl⟩ := List.mem_map.mp hp
        have hfst : (if (q.1 == pkeyOf x && q.2.1.is_milestone && !x.1.is_milestone) = true
            then (q.1, x) else q).1 = q.1 := by
          split <;> rfl
        rw [hfst]
        obtain ⟨y, hy, hyk⟩ := (h2 q.1).mp ⟨q, hq, rfl⟩
        exact ⟨y, List.mem_append_left _ hy, hyk⟩
      · rintro ⟨z, hz, rfl⟩
        rcases List.mem_append.mp hz with hz | hz
        · obtain ⟨p, hp, hpk⟩ := (h2 (pkeyOf z)).mpr ⟨z, hz, rfl⟩
          refine ⟨(if (p.1 == pkeyOf x && p.2.1.is_milestone && !x.1.is_milestone) = true
            then (p.1, x) else p), List.mem_map.mpr ⟨p, hp, rfl⟩, ?_⟩
          split <;> simpa using hpk
        · have hzx : z = x := by simpa using hz
          refine ⟨(if (q0.1 == pkeyOf x && q0.2.1.is_milestone && !x.1.is_milestone) = true
            then (q0.1, x) else q0), List.mem_map.mpr ⟨q0, hq0, rfl⟩, ?_⟩
          rw [hzx]
          split <;> simpa using hq0k
  · rw [if_neg hc]
    rw [List.any_eq_true] at hc
    push_neg at hc
    have hnok : ∀ q ∈ d, q.1 ≠ pkeyOf x := by
      intro q hq he
      exact absurd (by simp [he]) (hc q hq)
    constructor
    · intro p hp
      rcases List.mem_append.mp hp with hp | hp
      · have hx : ¬ ((pkeyOf x == p.1) = true) := by
          rw [beq_iff_eq]
          intro he
          exact hnok p hp he.symm
        rw [groupPK_append_one, if_neg hx]
        simp [h1 p hp]
      · have hpe : p = (pkeyOf x, x) := by simpa using hp
        rw [hpe]
        show some x = pickEntry (groupPK (processed ++ [x]) (pkeyOf x))
        rw [groupPK_append_one, if_pos (by simp)]
        have hempty : groupPK processed (pkeyOf x) = [] := by
          unfold groupPK
          rw [List.filter_eq_nil_iff]
          intro y hy
          simp only [beq_iff_eq]
          intro he
          obtain ⟨p2, hp2, hp2k⟩ := (h2 (pkeyOf x)).mpr ⟨y, hy, he⟩
          exact hnok p2 hp2 hp2k
        rw [hempty, List.nil_append, pickEntry_singleton]
    · intro k
      constructor
      · rintro ⟨p, hp, rfl⟩
        rcases List.mem_append.mp hp with hp | hp
        · obtain ⟨y, hy, hyk⟩ := (h2 p.1).mp ⟨p, hp, rfl⟩
          exact ⟨y, List.mem_append_left _ hy, hyk⟩
        · have hpe : p = (pkeyOf x, x) := by simpa using hp
          rw [hpe]
          exact ⟨x, List.mem_append_right _ (by simp), rfl⟩
      · rintro ⟨z, hz, rfl⟩
        rcases List.mem_append.mp hz with hz | hz
        · obtain ⟨p, hp, hpk⟩ := (h2 (pkeyOf z)).mpr ⟨z, hz, rfl⟩
          exact ⟨p, List.mem_append_left _ hp, hpk⟩
        · have hzx : z = x := by simpa using hz
          rw [hzx]
          exact ⟨(pkeyOf x, x), List.mem_append_right _ (by simp), rfl⟩

lemma foldl_addPatch_pick : ∀ (vs processed : List VersionTuple)
    (d : List (PatchKey × VersionTuple)),
    (∀ p ∈ d, some p.2 = pickEntry (groupPK processed p.1)) →
    (∀ k, (∃ p ∈ d, p.1 = k) ↔ ∃ y ∈ processed, pkeyOf y = k) →
    (∀ p ∈ vs.foldl addPatch d, some p.2 = pickEntry (groupPK (processed ++ vs) p.1)) ∧
    (∀ k, (∃ p ∈ vs.foldl addPatch d, p.1 = k) ↔ ∃ y ∈ processed ++ vs, pkeyOf y = k) := by
  intro vs
  induction vs with
  | nil =>
    intro processed d h1 h2
    simp only [List.foldl_nil, List.append_nil]
    exact ⟨h1, h2⟩
  | cons x xs ih =>
    intro processed d h1 h2
    obtain ⟨h1x, h2x⟩ := addPatch_pick_inv h1 h2 x
    have hres := ih (processed ++ [x]) (addPatch d x) h1x h2x
    simpa [List.append_assoc] using hres

lemma buildPatchDict_spec (vs : List VersionTuple) :
    (∀ p ∈ buildPatchDict vs, some p.2 = pickEntry (groupPK vs p.1)) ∧
    (∀ k, (∃ p ∈ buildPatchDict vs, p.1 = k) ↔ ∃ y ∈ vs, pkeyOf y = k) := by
  have h := foldl_addPatch_pick vs [] [] (by simp) (by simp)
  simpa [buildPatchDict] using h

/-- C3: Stage 3 retains and excludes exactly as claimed, for every input.
First pass, per distinct `(major, minor, patch)` key: the kept entry is the
first-seen GA when the key ever sees one (a later-seen GA replaces an
earlier-seen pre-release) and the first-seen entry otherwise, and a key has
an entry iff it occurs in the input. Second pass: the result equals the
claim's retention rule — an entry of the deduplicated list is kept exactly
when no earlier entry is a GA of its minor line, so the first GA of each
line is kept and pre-release entries of lines with no earlier GA are
retained — stated also positionally: an entry preceded only by milestones or
by entries of other lines is in the output. Consequently the output has at
most one entry per key and nothing of a minor line after the line's first
kept GA; the two §8 examples evaluate exactly as claimed, the later-seen GA
collapsing `[8.2.1-m02, 8.2.1-rc01, 8.2.1]` to `[8.2.1]`. -/
theorem C3_keep_latest_per_line :
    (∀ vs : List VersionTuple,
      (∀ p ∈ buildPatchDict vs, some p.2 = pickEntry (groupPK vs p.1)) ∧
      (∀ k, (∃ p ∈ buildPatchDict vs, p.1 = k) ↔ ∃ y ∈ vs, pkeyOf y = k)) ∧
    (∀ vs : List VersionTuple,
      filter_actual_versions vs =
        keepRetainedSpec [] ((buildPatchDict vs).map Prod.snd)) ∧
    (∀ (l1 l2 : List VersionTuple) (x : VersionTuple),
      (∀ y ∈ l1, y.1.is_milestone = true ∨ vkeyOf y ≠ vkeyOf x) →
      x ∈ keepFirstGA (l1 ++ x :: l2) []) ∧
    (∀ vs : List VersionTuple,
      (filter_actual_versions vs).Pairwise (fun a b => pkeyOf a ≠ pkeyOf b) ∧
      (filter_actual_versions vs).Pairwise
        (fun a b => vkeyOf a = vkeyOf b → a.1.is_milestone = true)) ∧
    filter_actual_versions
      [(⟨8, 2, some 2, ""⟩, "c1", "r1"), (⟨8, 2, some 1, ""⟩, "c2", "r2"),
       (⟨8, 2, some 0, ""⟩, "c3", "r3"), (⟨8, 1, some 1, ""⟩, "c4", "r4"),
       (⟨8, 1, some 0, ""⟩, "c5", "r5")] =
      [(⟨8, 2, some 2, ""⟩, "c1", "r1"), (⟨8, 1, some 1, ""⟩, "c4", "r4")] ∧
    filter_actual_versions
      [(⟨8, 2, some 1, "-m02"⟩, "cm2", "rm2"), (⟨8, 2, some 1, "-rc01"⟩, "crc", "rrc"),
       (⟨8, 2, some 1, ""⟩, "cga", "rga")] =
      [(⟨8, 2, some 1, ""⟩, "cga", "rga")] := by
  refine ⟨buildPatchDict_spec, ?_, keepFirstGA_retains, ?_, by decide, by decide⟩
  · intro vs
    unfold filter_actual_versions
    exact keepFirstGA_eq_keepRetainedSpec _ [] [] (fun k => rfl)
  · intro vs
    have hdict := buildPatchDict_inv vs [] List.Pairwise.nil (by simp)
    unfold filter_actual_versions
    constructor
    · have hvals : ((buildPatchDict vs).map Prod.snd).Pairwise
          (fun a b => pkeyOf a ≠ pkeyOf b) := by
        rw [List.pairwise_map]
        refine hdict.1.imp_of_mem ?_
        intro p q hp hq hne
        rw [hdict.2 p hp, hdict.2 q hq]
        exact hne
      exact List.Pairwise.sublist (keepFirstGA_sublist _ _) hvals
    · exact (keepFirstGA_inv _ _).2
